import Mathlib

/-!
Verification of the conversation-log formatter (`claude_history.py`).

The development shallowly embeds the algorithmic core of the program:

* the JSONL parser (`parse`, lines 195-208),
* the conversation assembler (`_build_conversation_pairs`, lines 210-257),
* the tool-result lookup (`_find_tool_result`, lines 463-472),
* the character-level diff highlighter
  (`_format_diff_line_with_inline_highlight`, lines 474-539, on top of
  difflib.SequenceMatcher),
* the raw-text diff generator (`_generate_diff_from_tool_input`,
  lines 541-562, on top of difflib.unified_diff),
* the structured-patch walk and the raw-text fallback rendering loop of
  `_format_tool_result` (lines 667-693 and 709-727).

Loops of the source are translated as structurally recursive functions with
an explicit fuel argument (the fuel supplied by each wrapper provably exceeds
the number of iterations the Python loop can make), so that every definition
is executable and kernel-reducible.
-/

set_option linter.unusedSectionVars false

namespace ClaudeHistory

/-! ## Log entries and the conversation assembler -/

/-- One parsed JSONL record, as far as the assembler inspects it: its
`type` field and whether the key `toolUseResult` is present
(`'toolUseResult' in entry` in the source). -/
structure Entry where
  type : String
  hasToolUseResult : Bool
deriving DecidableEq, Repr

instance : Inhabited Entry := ⟨⟨"", false⟩⟩

/-- `entries[i]` lookup; the source only indexes within bounds, every loop
guards with `i < len(self.entries)` first. -/
def entryAt (entries : List Entry) (i : Nat) : Entry :=
  entries.getD i default

/-- `entry.get('type') == 'user' and 'toolUseResult' not in entry`:
a user event that opens a turn. -/
def isUserTurnEntry (e : Entry) : Bool :=
  e.type == "user" && !e.hasToolUseResult

/-- `entry.get('type') == 'user' and 'toolUseResult' in entry`:
a tool-result carrier. -/
def isCarrier (e : Entry) : Bool :=
  e.type == "user" && e.hasToolUseResult

/-- `entry.get('type') == 'assistant'`. -/
def isAssistant (e : Entry) : Bool :=
  e.type == "assistant"

/-- `[s, s+1, ..., s+n-1]`. -/
def natRange : Nat → Nat → List Nat
  | _, 0 => []
  | s, n + 1 => s :: natRange (s + 1) n

/-- Length of the maximal run of tool-result carriers starting at index `k`:
the number of iterations of the inner `while k < len(self.entries)` loop
(lines 239-246) that append a result. -/
def carrierRunLen (entries : List Entry) (k : Nat) : Nat :=
  ((entries.drop k).takeWhile isCarrier).length

/-- The value of `k` after the result-collection loop: the first index `≥ k`
that is not a tool-result carrier (or the end of the list). -/
def consumeResults (entries : List Entry) (k : Nat) : Nat :=
  k + carrierRunLen entries k

/-- The indices of the entries appended to `pair['tool_results']` by the
result-collection loop starting at index `k` (the source stores the entry
objects themselves; we record their log positions). -/
def carrierRun (entries : List Entry) (k : Nat) : List Nat :=
  natRange k (carrierRunLen entries k)

/-- One assembled conversation pair.  The source stores entry objects; we
store their positions in the entry list (`user_message` is the index of the
user event that opened the turn, `assistant_response` the index of the
assistant event, `tool_results` the indices of the collected carriers). -/
structure Pair where
  user_message : Nat
  assistant_response : Nat
  tool_results : List Nat
deriving DecidableEq, Repr

/-- The pair built at lines 231-247 for the turn opened at `u` and the
assistant response at `j`. -/
def mkPair (entries : List Entry) (u j : Nat) : Pair :=
  { user_message := u
    assistant_response := j
    tool_results := carrierRun entries (j + 1) }

/-- The middle `while j < len(self.entries)` loop (lines 222-252): scans one
turn, returning the pairs it appends and the final
`last_processed_index`.  Fuel bounds the iteration count (`j` grows by at
least one each pass). -/
def innerLoopAux (entries : List Entry) (u : Nat) :
    Nat → Nat → Nat → List Pair × Nat
  | 0, _, lpi => ([], lpi)
  | fuel + 1, j, lpi =>
    if j < entries.length then
      if isUserTurnEntry (entryAt entries j) then
        ([], lpi)
      else if isAssistant (entryAt entries j) then
        let k := consumeResults entries (j + 1)
        let rest := innerLoopAux entries u fuel k (k - 1)
        (mkPair entries u j :: rest.1, rest.2)
      else
        innerLoopAux entries u fuel (j + 1) lpi
    else ([], lpi)

/-- The outer `while i < len(self.entries)` loop (lines 212-257). -/
def outerLoopAux (entries : List Entry) : Nat → Nat → List Pair
  | 0, _ => []
  | fuel + 1, i =>
    if i < entries.length then
      if isUserTurnEntry (entryAt entries i) then
        let r := innerLoopAux entries i (entries.length + 1) (i + 1) i
        r.1 ++ outerLoopAux entries fuel (r.2 + 1)
      else
        outerLoopAux entries fuel (i + 1)
    else []

/-- `_build_conversation_pairs` (lines 210-257). -/
def buildConversationPairs (entries : List Entry) : List Pair :=
  outerLoopAux entries (entries.length + 1) 0

/-! Declarative description of the assembler, used to state and prove the
spec claims: a turn starts at every user event that is not a tool-result
carrier; each assistant event belongs to the most recent turn start before
it; its pair collects the carrier run right after it. -/

/-- First index `≥ j` holding a turn-opening user event (or the length of
the list when there is none). -/
def nextTurnStart (entries : List Entry) (j : Nat) : Nat :=
  j + ((entries.drop j).takeWhile (fun e => !isUserTurnEntry e)).length

/-- Indices of assistant events in `[j, nextTurnStart entries j)`. -/
def windowAssistants (entries : List Entry) (j : Nat) : List Nat :=
  (natRange j (nextTurnStart entries j - j)).filter
    (fun a => isAssistant (entryAt entries a))

/-- The pairs contributed by the turn opened at `u`, scanning from `j`. -/
def turnPairs (entries : List Entry) (u j : Nat) : List Pair :=
  (windowAssistants entries j).map (mkPair entries u)

/-- Turn-opening indices at positions `≥ i`. -/
def turnStartsFrom (entries : List Entry) (i : Nat) : List Nat :=
  (natRange i (entries.length - i)).filter
    (fun m => isUserTurnEntry (entryAt entries m))

/-- Concatenation of the lists produced by `f`. -/
def concatMap (f : α → List β) : List α → List β
  | [] => []
  | x :: xs => f x ++ concatMap f xs

/-- Declarative form of the whole assembly. -/
def assembledPairs (entries : List Entry) : List Pair :=
  concatMap (fun u => turnPairs entries u (u + 1)) (turnStartsFrom entries 0)

/-! ## The JSONL parser (`parse`, lines 195-208) -/

/-- One raw line of the history file, as far as `parse` distinguishes them:
blank (`line.strip()` falsy), malformed (`json.loads` raises
`JSONDecodeError`), or valid structured data yielding an entry. -/
inductive RawLine where
  | blank : RawLine
  | malformed : RawLine
  | valid : Entry → RawLine
deriving DecidableEq, Repr

/-- The entries accumulated by `parse`: blank lines are skipped, malformed
lines are skipped, `summary` records are dropped
(`entry.get('type') not in ['summary']`). -/
def parseEntries : List RawLine → List Entry
  | [] => []
  | RawLine.blank :: rest => parseEntries rest
  | RawLine.malformed :: rest => parseEntries rest
  | RawLine.valid e :: rest =>
    if e.type == "summary" then parseEntries rest else e :: parseEntries rest

/-- The number of diagnostics printed to stderr by `parse`: one per
malformed line (line 206). -/
def parseDiagnostics : List RawLine → Nat
  | [] => 0
  | RawLine.malformed :: rest => parseDiagnostics rest + 1
  | _ :: rest => parseDiagnostics rest

/-! ## The tool-result lookup (`_find_tool_result`, lines 463-472)

To state claims about "any shape of the entries", tool uses and tool
results are modelled as arbitrary JSON-like Python values, and each Python
operation that can raise is translated into `Except`, carrying the name of
the exception class. -/

/-- A Python value as it appears in a parsed JSON log record. -/
inductive JVal where
  | null : JVal
  | bool : Bool → JVal
  | num : Int → JVal
  | str : String → JVal
  | arr : List JVal → JVal
  | obj : List (String × JVal) → JVal

/-- First binding of `key` in a field list (the model keeps each dict as an
association list with distinct keys, as produced by `json.loads`). -/
def lookupField (key : String) : List (String × JVal) → Option JVal
  | [] => none
  | (k, v) :: rest => if k == key then some v else lookupField key rest

/-- `v.get(key, dflt)`: returns the binding or the default on a dict, and
raises `AttributeError` on any non-dict value. -/
def dictGet (v : JVal) (key : String) (dflt : JVal) : Except String JVal :=
  match v with
  | JVal.obj fields => Except.ok ((lookupField key fields).getD dflt)
  | _ => Except.error "AttributeError"

/-- `v[0]` in Python: first element of a list (`IndexError` when empty),
first character of a string (`IndexError` when empty), `KeyError` on a
dict whose keys are strings, `TypeError` otherwise. -/
def pyIndexZero : JVal → Except String JVal
  | JVal.arr [] => Except.error "IndexError"
  | JVal.arr (x :: _) => Except.ok x
  | JVal.str s =>
    if s.isEmpty then Except.error "IndexError"
    else Except.ok (JVal.str (String.singleton s.front))
  | JVal.obj _ => Except.error "KeyError"
  | _ => Except.error "TypeError"

/-- Python truthiness (`if not tool_id`). -/
def truthy : JVal → Bool
  | JVal.null => false
  | JVal.bool b => b
  | JVal.num n => n != 0
  | JVal.str s => !s.isEmpty
  | JVal.arr xs => !xs.isEmpty
  | JVal.obj fields => !fields.isEmpty

mutual
/-- Python `==` on JSON values.  `True == 1` and `False == 0` hold
numerically; containers compare element-wise.  (Python dict equality is
key-set based rather than order based; the ids the source compares are
primitives, where the two notions coincide.) -/
def pyEq : JVal → JVal → Bool
  | JVal.null, JVal.null => true
  | JVal.bool a, JVal.bool b => a == b
  | JVal.bool a, JVal.num m => (if a then (1 : Int) else 0) == m
  | JVal.num n, JVal.bool b => n == (if b then (1 : Int) else 0)
  | JVal.num a, JVal.num b => a == b
  | JVal.str a, JVal.str b => a == b
  | JVal.arr a, JVal.arr b => pyEqList a b
  | JVal.obj a, JVal.obj b => pyEqFields a b
  | _, _ => false

/-- Element-wise list equality. -/
def pyEqList : List JVal → List JVal → Bool
  | [], [] => true
  | x :: xs, y :: ys => pyEq x y && pyEqList xs ys
  | _, _ => false

/-- Field-wise dict equality. -/
def pyEqFields : List (String × JVal) → List (String × JVal) → Bool
  | [], [] => true
  | (k, x) :: xs, (l, y) :: ys => k == l && pyEq x y && pyEqFields xs ys
  | _, _ => false
end

/-- The `for result in tool_results` loop of `_find_tool_result`
(lines 469-471): evaluates
`result.get('message', {}).get('content', [{}])[0].get('tool_use_id')`
for each entry and compares it with `tool_id`. -/
def findToolResultLoop (toolId : JVal) : List JVal → Except String (Option JVal)
  | [] => Except.ok none
  | result :: rest =>
    match dictGet result "message" (JVal.obj []) with
    | Except.error e => Except.error e
    | Except.ok msg =>
      match dictGet msg "content" (JVal.arr [JVal.obj []]) with
      | Except.error e => Except.error e
      | Except.ok content =>
        match pyIndexZero content with
        | Except.error e => Except.error e
        | Except.ok first =>
          match dictGet first "tool_use_id" JVal.null with
          | Except.error e => Except.error e
          | Except.ok tuid =>
            if pyEq tuid toolId then Except.ok (some result)
            else findToolResultLoop toolId rest

/-- `_find_tool_result` (lines 463-472): `tool.get('id')`, the falsy
early-return, then the scan of `tool_results`. -/
def findToolResult (tool : JVal) (tool_results : List JVal) :
    Except String (Option JVal) :=
  match dictGet tool "id" JVal.null with
  | Except.error e => Except.error e
  | Except.ok toolId =>
    if !truthy toolId then Except.ok none
    else findToolResultLoop toolId tool_results

/-! ## difflib.SequenceMatcher

The source diffs with `difflib.SequenceMatcher(None, a, b)` (characters for
the inline highlighter, whole lines for `unified_diff`).  The matcher is
embedded generically.  Junk handling is omitted: the matcher is created with
no junk function, and the autojunk heuristic only applies to sequences of
200 elements or more, far beyond anything the claims exercise; with an
empty junk set the two junk-extension loops of `find_longest_match` never
run, so only the main dynamic program and the plain extension loops are
translated. -/

variable {α : Type} [DecidableEq α] [Inhabited α]

/-- Element at index `i` (loops only read in range). -/
def chAt (l : List α) (i : Nat) : α :=
  l.getD i default

/-- A matching block `(a, b, size)` as returned by `find_longest_match`. -/
structure Match3 where
  a : Nat
  b : Nat
  size : Nat
deriving DecidableEq, Repr

/-- The inner `for j in b2j.get(a[i], [])` loop of `find_longest_match`,
one row of the dynamic program.  Python only visits indices `j` with
`b[j] == a[i]`; we visit every `j` in `[j, j+cnt)` and skip the others,
which touches neither `newj2len` nor the running best.
`k = j2len.get(j-1, 0) + 1` becomes the guarded lookup below, and
`if k > bestsize: besti, bestj, bestsize = i-k+1, j-k+1, k` is kept
verbatim. -/
def flmRowAux (a b : List α) (i : Nat) (prev : Nat → Nat) :
    Nat → Nat → (Nat → Nat) → Match3 → ((Nat → Nat) × Match3)
  | _, 0, acc, best => (acc, best)
  | j, cnt + 1, acc, best =>
    if chAt b j = chAt a i then
      let k := (if j == 0 then 0 else prev (j - 1)) + 1
      let acc' : Nat → Nat := fun m => if m == j then k else acc m
      let best' : Match3 :=
        if best.size < k then ⟨i + 1 - k, j + 1 - k, k⟩ else best
      flmRowAux a b i prev (j + 1) cnt acc' best'
    else
      flmRowAux a b i prev (j + 1) cnt acc best

/-- The outer `for i in range(alo, ahi)` loop of `find_longest_match`:
`j2len = {}` at the start, each row replaces it with `newj2len`. -/
def flmRows (a b : List α) (blo bcnt : Nat) :
    Nat → Nat → (Nat → Nat) → Match3 → Match3
  | _, 0, _, best => best
  | i, icnt + 1, j2len, best =>
    let r := flmRowAux a b i j2len blo bcnt (fun _ => 0) best
    flmRows a b blo bcnt (i + 1) icnt r.1 r.2

/-- `while besti > alo and bestj > blo and a[besti-1] == b[bestj-1]`:
extend the best block to the left.  Fuel `m.a + 1` bounds the steps. -/
def extendLeftAux (a b : List α) (alo blo : Nat) : Nat → Match3 → Match3
  | 0, m => m
  | fuel + 1, m =>
    if alo < m.a ∧ blo < m.b ∧ chAt a (m.a - 1) = chAt b (m.b - 1) then
      extendLeftAux a b alo blo fuel ⟨m.a - 1, m.b - 1, m.size + 1⟩
    else m

/-- `while besti+bestsize < ahi and bestj+bestsize < bhi and
a[besti+bestsize] == b[bestj+bestsize]`: extend to the right.  Fuel
`ahi + 1` bounds the steps. -/
def extendRightAux (a b : List α) (ahi bhi : Nat) : Nat → Match3 → Match3
  | 0, m => m
  | fuel + 1, m =>
    if m.a + m.size < ahi ∧ m.b + m.size < bhi ∧
        chAt a (m.a + m.size) = chAt b (m.b + m.size) then
      extendRightAux a b ahi bhi fuel ⟨m.a, m.b, m.size + 1⟩
    else m

/-- `find_longest_match(alo, ahi, blo, bhi)` with an empty junk set. -/
def findLongestMatch (a b : List α) (alo ahi blo bhi : Nat) : Match3 :=
  let best := flmRows a b blo (bhi - blo) alo (ahi - alo) (fun _ => 0)
    ⟨alo, blo, 0⟩
  let best' := extendLeftAux a b alo blo (best.a + 1) best
  extendRightAux a b ahi bhi (ahi + 1) best'

/-- The recursive block collection of `get_matching_blocks` (its
queue-driven loop emits, after sorting, exactly the in-order traversal of
this recursion).  Each level splits its interval around a non-empty
longest match, so the interval sum shrinks and the fuel chosen by
`getMatchingBlocksRaw` is never exhausted. -/
def matchingBlocksRec (a b : List α) :
    Nat → Nat → Nat → Nat → Nat → List Match3
  | 0, _, _, _, _ => []
  | fuel + 1, alo, ahi, blo, bhi =>
    let m := findLongestMatch a b alo ahi blo bhi
    if 0 < m.size then
      matchingBlocksRec a b fuel alo m.a blo m.b ++
        m :: matchingBlocksRec a b fuel (m.a + m.size) ahi (m.b + m.size) bhi
    else []

/-- The sorted matching blocks before the adjacency merge. -/
def getMatchingBlocksRaw (a b : List α) : List Match3 :=
  matchingBlocksRec a b (a.length + b.length + 1) 0 a.length 0 b.length

/-- The second pass of `get_matching_blocks`: merge adjacent blocks,
starting from `i1, j1, k1 = 0, 0, 0`. -/
def mergeAdjacent : Match3 → List Match3 → List Match3
  | cur, [] => if 0 < cur.size then [cur] else []
  | cur, m :: rest =>
    if cur.a + cur.size == m.a && cur.b + cur.size == m.b then
      mergeAdjacent ⟨cur.a, cur.b, cur.size + m.size⟩ rest
    else if 0 < cur.size then
      cur :: mergeAdjacent m rest
    else
      mergeAdjacent m rest

/-- `get_matching_blocks()`, including the `(la, lb, 0)` sentinel. -/
def getMatchingBlocks (a b : List α) : List Match3 :=
  mergeAdjacent ⟨0, 0, 0⟩ (getMatchingBlocksRaw a b) ++
    [⟨a.length, b.length, 0⟩]

/-- An opcode tag. -/
inductive OTag where
  | replace : OTag
  | delete : OTag
  | insert : OTag
  | equal : OTag
deriving DecidableEq, Repr

/-- One opcode `(tag, i1, i2, j1, j2)`. -/
structure Opcode where
  tag : OTag
  i1 : Nat
  i2 : Nat
  j1 : Nat
  j2 : Nat
deriving DecidableEq, Repr

/-- The loop of `get_opcodes()` over the matching blocks, carrying the
cursor `i, j = 0, 0`. -/
def opcodesFromBlocks : Nat → Nat → List Match3 → List Opcode
  | _, _, [] => []
  | i, j, m :: rest =>
    let pre : List Opcode :=
      if i < m.a ∧ j < m.b then [⟨OTag.replace, i, m.a, j, m.b⟩]
      else if i < m.a then [⟨OTag.delete, i, m.a, j, m.b⟩]
      else if j < m.b then [⟨OTag.insert, i, m.a, j, m.b⟩]
      else []
    let eqs : List Opcode :=
      if 0 < m.size then
        [⟨OTag.equal, m.a, m.a + m.size, m.b, m.b + m.size⟩]
      else []
    pre ++ eqs ++ opcodesFromBlocks (m.a + m.size) (m.b + m.size) rest

/-- `get_opcodes()`. -/
def getOpcodes (a b : List α) : List Opcode :=
  opcodesFromBlocks 0 0 (getMatchingBlocks a b)

/-! ## Inline highlighting (`_format_diff_line_with_inline_highlight`,
lines 474-539)

The source interleaves the computed spans with ANSI color codes; the
embedding keeps the output as a list of segments, each either plain or
marked as changed (the marked segments are the ones the source wraps in
`BG_BRIGHT_RED` / `BG_BRIGHT_GREEN`). -/

/-- `s[i:j]` on a string. -/
def strSlice (s : String) (i j : Nat) : String :=
  String.mk ((s.toList.drop i).take (j - i))

/-- `p` is a leading segment of `l`. -/
def hasPfx : List Char → List Char → Bool
  | [], _ => true
  | _ :: _, [] => false
  | c :: cs, d :: ds => c == d && hasPfx cs ds

/-- `s.startswith(p)` in Python. -/
def strStarts (s p : String) : Bool :=
  hasPfx p.toList s.toList

/-- A piece of a rendered diff line: plain, or highlighted as changed. -/
inductive Seg where
  | plain : String → Seg
  | marked : String → Seg
deriving DecidableEq, Repr

/-- The opcode walk for the delete line of a modification pair
(lines 496-506): `equal` spans of the old content are appended plain,
`delete`/`replace` spans are appended highlighted, `insert` spans append
nothing. -/
def highlightOldSegs (oldContent newContent : String) : List Seg :=
  (getOpcodes oldContent.toList newContent.toList).filterMap fun op =>
    match op.tag with
    | OTag.equal => some (Seg.plain (strSlice oldContent op.i1 op.i2))
    | OTag.delete => some (Seg.marked (strSlice oldContent op.i1 op.i2))
    | OTag.replace => some (Seg.marked (strSlice oldContent op.i1 op.i2))
    | OTag.insert => none

/-- The opcode walk for the add line of a modification pair
(lines 522-528): `equal` spans of the new content plain,
`insert`/`replace` spans highlighted, `delete` spans nothing. -/
def highlightNewSegs (oldContent newContent : String) : List Seg :=
  (getOpcodes oldContent.toList newContent.toList).filterMap fun op =>
    match op.tag with
    | OTag.equal => some (Seg.plain (strSlice newContent op.j1 op.j2))
    | OTag.insert => some (Seg.marked (strSlice newContent op.j1 op.j2))
    | OTag.replace => some (Seg.marked (strSlice newContent op.j1 op.j2))
    | OTag.delete => none

/-- The five possible renderings of one diff line: the two halves of a
detected modification pair (with their segments), a standalone delete or
add (whole line on a solid background, no partial highlighting), or a
context/other line returned unchanged. -/
inductive HLine where
  | modifiedDel : List Seg → HLine
  | modifiedAdd : List Seg → HLine
  | wholeDel : String → HLine
  | wholeAdd : String → HLine
  | plainLine : String → HLine
deriving DecidableEq, Repr

/-- `_format_diff_line_with_inline_highlight(line, all_lines, line_idx)`:
the branch structure of lines 479-539. -/
def formatDiffLineWithInlineHighlight (line : String) (allLines : List String)
    (idx : Nat) : HLine :=
  if line == "" then HLine.plainLine line
  else if strStarts line "-" && decide (idx + 1 < allLines.length) &&
      strStarts (allLines.getD (idx + 1) "") "+" then
    HLine.modifiedDel
      (highlightOldSegs (line.drop 1) ((allLines.getD (idx + 1) "").drop 1))
  else if strStarts line "+" && decide (0 < idx) &&
      strStarts (allLines.getD (idx - 1) "") "-" then
    HLine.modifiedAdd
      (highlightNewSegs ((allLines.getD (idx - 1) "").drop 1) (line.drop 1))
  else if strStarts line "-" then HLine.wholeDel line
  else if strStarts line "+" then HLine.wholeAdd line
  else HLine.plainLine line

/-- Concatenation of the marked segments of a segment list. -/
def markedText : List Seg → String
  | [] => ""
  | Seg.marked t :: rest => t ++ markedText rest
  | Seg.plain _ :: rest => markedText rest

/-- Concatenation of the plain (unmarked) segments of a segment list. -/
def plainText : List Seg → String
  | [] => ""
  | Seg.plain t :: rest => t ++ plainText rest
  | Seg.marked _ :: rest => plainText rest

/-- The text a rendered line highlights as changed. -/
def hlMarked : HLine → String
  | HLine.modifiedDel segs => markedText segs
  | HLine.modifiedAdd segs => markedText segs
  | HLine.wholeDel s => s.drop 1
  | HLine.wholeAdd s => s.drop 1
  | HLine.plainLine _ => ""

/-! ## `difflib.unified_diff` and `_generate_diff_from_tool_input`
(lines 541-562) -/

/-- `str.splitlines(keepends=True)` restricted to `\n` line boundaries
(the only terminator occurring in the inputs under study; Python also
splits at `\r` and some rarer boundary characters). -/
def splitlinesAux : List Char → List Char → List String
  | [], acc => if acc.isEmpty then [] else [String.mk acc.reverse]
  | c :: rest, acc =>
    if c = '\n' then
      String.mk (acc.reverse ++ ['\n']) :: splitlinesAux rest []
    else
      splitlinesAux rest (c :: acc)

/-- `s.splitlines(keepends=True)`. -/
def splitlinesKeepends (s : String) : List String :=
  splitlinesAux s.toList []

/-- `_format_range_unified(start, stop)` from difflib. -/
def formatRangeUnified (start stop : Nat) : String :=
  let beginning := start + 1
  let length := stop - start
  if length == 1 then toString beginning
  else if length == 0 then toString start ++ "," ++ toString length
  else toString beginning ++ "," ++ toString length

/-- `l[i1:i2]`. -/
def sliceList (l : List α) (i j : Nat) : List α :=
  (l.drop i).take (j - i)

/-- Replace the head of an opcode list by `f` of it. -/
def mapHeadOp (f : Opcode → Opcode) : List Opcode → List Opcode
  | [] => []
  | c :: rest => f c :: rest

/-- Replace the last element of an opcode list by `f` of it. -/
def mapLastOp (f : Opcode → Opcode) : List Opcode → List Opcode
  | [] => []
  | [c] => [f c]
  | c :: rest => c :: mapLastOp f rest

/-- The grouping loop of `get_grouped_opcodes(n)`: splits at `equal`
opcodes longer than `2n`, keeping `n` lines of context on both sides. -/
def groupLoop (nctx : Nat) : List Opcode → List Opcode → List (List Opcode)
  | group, [] =>
    if group.isEmpty then []
    else if group.length == 1 &&
        (group.headD ⟨OTag.equal, 0, 0, 0, 0⟩).tag == OTag.equal then []
    else [group]
  | group, c :: rest =>
    if c.tag == OTag.equal && nctx + nctx < c.i2 - c.i1 then
      (group ++ [⟨OTag.equal, c.i1, min c.i2 (c.i1 + nctx), c.j1,
          min c.j2 (c.j1 + nctx)⟩]) ::
        groupLoop nctx
          [⟨OTag.equal, max c.i1 (c.i2 - nctx), c.i2,
            max c.j1 (c.j2 - nctx), c.j2⟩] rest
    else
      groupLoop nctx (group ++ [c]) rest

/-- `get_grouped_opcodes(n)`: seed an all-equal opcode when there are
none, trim the leading and trailing `equal` opcodes to `n` context lines,
then run the grouping loop. -/
def groupedOpcodes (a b : List α) (nctx : Nat) : List (List Opcode) :=
  let codes0 := getOpcodes a b
  let codes1 := if codes0.isEmpty then [⟨OTag.equal, 0, 1, 0, 1⟩] else codes0
  let codes2 := mapHeadOp (fun c =>
    if c.tag == OTag.equal then
      ⟨OTag.equal, max c.i1 (c.i2 - nctx), c.i2, max c.j1 (c.j2 - nctx), c.j2⟩
    else c) codes1
  let codes3 := mapLastOp (fun c =>
    if c.tag == OTag.equal then
      ⟨OTag.equal, c.i1, min c.i2 (c.i1 + nctx), c.j1, min c.j2 (c.j1 + nctx)⟩
    else c) codes2
  groupLoop nctx [] codes3

/-- The body lines one group contributes to a unified diff. -/
def formatGroupBody (a b : List String) : List Opcode → List String
  | [] => []
  | op :: rest =>
    (match op.tag with
      | OTag.equal => (sliceList a op.i1 op.i2).map (fun s => " " ++ s)
      | OTag.replace =>
        (sliceList a op.i1 op.i2).map (fun s => "-" ++ s) ++
          (sliceList b op.j1 op.j2).map (fun s => "+" ++ s)
      | OTag.delete => (sliceList a op.i1 op.i2).map (fun s => "-" ++ s)
      | OTag.insert => (sliceList b op.j1 op.j2).map (fun s => "+" ++ s)) ++
      formatGroupBody a b rest

/-- The `@@`-header plus body for one group. -/
def formatGroup (a b : List String) (g : List Opcode) : List String :=
  match g with
  | [] => []
  | first :: rest =>
    let last := (first :: rest).getLast (List.cons_ne_nil _ _)
    ("@@ -" ++ formatRangeUnified first.i1 last.i2 ++ " +" ++
        formatRangeUnified first.j1 last.j2 ++ " @@") ::
      formatGroupBody a b (first :: rest)

/-- `difflib.unified_diff(a, b, fromfile='old', tofile='new', lineterm='',
n=3)`: the two file-header lines are emitted once before the first group
(the generator's `started` flag). -/
def unifiedDiff (a b : List String) : List String :=
  let groups := groupedOpcodes a b 3
  if groups.isEmpty then []
  else "--- old" :: "+++ new" :: concatMap (formatGroup a b) groups

/-- `_generate_diff_from_tool_input` (lines 541-562): the falsy
early-return, `splitlines(keepends=True)` on each truthy side, the
unified diff, and `diff_lines[2:] if len(diff_lines) > 2 else []`. -/
def generateDiffFromToolInput (old_string new_string : String) : List String :=
  if old_string == "" && new_string == "" then []
  else
    let old_lines := if old_string == "" then [] else splitlinesKeepends old_string
    let new_lines := if new_string == "" then [] else splitlinesKeepends new_string
    let diff_lines := unifiedDiff old_lines new_lines
    if 2 < diff_lines.length then diff_lines.drop 2 else []

/-! ## The structured-patch walk (`_format_tool_result`, lines 667-693) -/

/-- Kind of an emitted diff row. -/
inductive DKind where
  | del : DKind
  | add : DKind
  | context : DKind
deriving DecidableEq, Repr

/-- One emitted diff row of the structured-patch path: its kind, the old
and new line numbers it is attributed to (the source prints
`old_line_num` for deletes, `new_line_num` for adds and context, while
stepping the counters as recorded here), and the line content without its
`-`/`+`/space marker. -/
structure DiffLine where
  kind : DKind
  oldNo : Option Nat
  newNo : Option Nat
  content : String
deriving DecidableEq, Repr

/-- The `for i, line in enumerate(lines)` walk of one structured hunk
(lines 678-693), threading `old_line_num` and `new_line_num`. -/
def walkHunkAux (oldNum newNum : Nat) : List String → List DiffLine
  | [] => []
  | line :: rest =>
    if strStarts line "-" then
      ⟨DKind.del, some oldNum, none, line.drop 1⟩ ::
        walkHunkAux (oldNum + 1) newNum rest
    else if strStarts line "+" then
      ⟨DKind.add, none, some newNum, line.drop 1⟩ ::
        walkHunkAux oldNum (newNum + 1) rest
    else
      ⟨DKind.context, some oldNum, some newNum, line.drop 1⟩ ::
        walkHunkAux (oldNum + 1) (newNum + 1) rest

/-- One hunk of a `structuredPatch` value. -/
structure Hunk where
  oldStart : Nat
  newStart : Nat
  lines : List String
deriving DecidableEq, Repr

/-- Walk one hunk with the counters seeded from `oldStart`/`newStart`
(lines 669-675). -/
def walkHunk (h : Hunk) : List DiffLine :=
  walkHunkAux h.oldStart h.newStart h.lines

/-! ## The raw-text fallback rendering loop (`_format_tool_result`,
lines 709-727, and the identical loop in `format_assistant_response`,
lines 440-459) -/

/-- Kind of a row of the fallback rendering. -/
inductive RKind where
  | hunkHeader : RKind
  | add : RKind
  | del : RKind
  | context : RKind
deriving DecidableEq, Repr

/-- One rendered row of the fallback path: only add and context rows carry
a line number (`line_num`); delete rows are printed with a blank number
field and hunk headers with none. -/
structure RLine where
  kind : RKind
  num : Option Nat
  content : String
deriving DecidableEq, Repr

/-- Digits read left to right onto an accumulator. -/
def readDigits (acc : Nat) : List Char → Nat
  | [] => acc
  | c :: rest =>
    if c.isDigit then readDigits (acc * 10 + (c.toNat - '0'.toNat)) rest
    else acc

/-- `re.search(r'\+(\d+)', line)`: the first `+` immediately followed by a
digit, returning the value of the maximal digit run after it. -/
def searchPlusNumAux : List Char → Option Nat
  | [] => none
  | '+' :: rest =>
    match rest with
    | c :: _ => if c.isDigit then some (readDigits 0 rest) else searchPlusNumAux rest
    | [] => none
  | _ :: rest => searchPlusNumAux rest

/-- First `+digits` group in a string, if any. -/
def searchPlusNum (s : String) : Option Nat :=
  searchPlusNumAux s.toList

/-- The `for i, line in enumerate(diff_lines)` loop of the fallback path:
`line_num` starts at 1, an `@@` header re-seeds it from the first
`+digits` group when that parses (and leaves it unchanged otherwise),
`+` lines print and bump it, `-` lines print a blank number field, other
lines print `line[1:]` and bump it. -/
def fallbackRenderAux (lineNum : Nat) : List String → List RLine
  | [] => []
  | line :: rest =>
    if strStarts line "@@" then
      let ln := (searchPlusNum line).getD lineNum
      ⟨RKind.hunkHeader, none, line⟩ :: fallbackRenderAux ln rest
    else if strStarts line "+" then
      ⟨RKind.add, some lineNum, line⟩ :: fallbackRenderAux (lineNum + 1) rest
    else if strStarts line "-" then
      ⟨RKind.del, none, line⟩ :: fallbackRenderAux lineNum rest
    else
      ⟨RKind.context, some lineNum, line.drop 1⟩ ::
        fallbackRenderAux (lineNum + 1) rest

/-- The fallback rendering of a generated diff, `line_num = 1` seed
(line 710). -/
def fallbackRender (diffLines : List String) : List RLine :=
  fallbackRenderAux 1 diffLines

/-! ## Analysis functions for the self-matching dynamic program -/

/-- Length of the run of equal positions ending at `(i, j)` when a list is
matched against itself: the value the `j2len` dynamic program of
`find_longest_match` stores at column `j` after row `i`.  Only used to
state the loop invariant of the proof that a list's longest match with
itself is the whole list. -/
def selfRun (a : List α) : Nat → Nat → Nat
  | 0, j => if chAt a 0 = chAt a j then 1 else 0
  | i + 1, 0 => if chAt a (i + 1) = chAt a 0 then 1 else 0
  | i + 1, j + 1 =>
    if chAt a (i + 1) = chAt a (j + 1) then selfRun a i j + 1 else 0

/-- The dynamic program's row above row `i` (all zero before the first
row). -/
def rowPrev (a : List α) : Nat → Nat → Nat
  | 0, _ => 0
  | i + 1, m => selfRun a i m

/-! ## Concrete inputs used by witnesses -/

/-- A small log: a turn with two assistant responses (the first followed
by one tool-result carrier), then a second turn. -/
def demoEntries : List Entry :=
  [⟨"user", false⟩, ⟨"assistant", false⟩, ⟨"user", true⟩,
    ⟨"assistant", false⟩, ⟨"user", false⟩, ⟨"assistant", false⟩]

/-- A log with one malformed line between two valid user/assistant pairs. -/
def demoLog : List RawLine :=
  [RawLine.valid ⟨"user", false⟩, RawLine.valid ⟨"assistant", false⟩,
    RawLine.malformed,
    RawLine.valid ⟨"user", false⟩, RawLine.valid ⟨"assistant", false⟩]

/-! # Lemmas and theorems -/

/-! ## Basic facts about the helper functions -/

theorem natRange_length (s n : Nat) : (natRange s n).length = n := by
  induction n generalizing s with
  | zero => rfl
  | succ n ih => simp [natRange, ih]

theorem mem_natRange {m s n : Nat} :
    m ∈ natRange s n ↔ s ≤ m ∧ m < s + n := by
  induction n generalizing s with
  | zero => simp [natRange]
  | succ n ih =>
    simp only [natRange, List.mem_cons, ih]
    omega

theorem natRange_pairwise (s n : Nat) :
    (natRange s n).Pairwise (fun x y => x < y) := by
  induction n generalizing s with
  | zero => exact List.Pairwise.nil
  | succ n ih =>
    refine List.Pairwise.cons ?_ (ih (s + 1))
    intro m hm
    have := mem_natRange.mp hm
    omega

theorem mem_concatMap {f : α → List β} {l : List α} {y : β} :
    y ∈ concatMap f l ↔ ∃ x ∈ l, y ∈ f x := by
  induction l with
  | nil => simp [concatMap]
  | cons x xs ih => simp [concatMap, ih]

theorem filter_concatMap (p : β → Bool) (f : α → List β) (l : List α) :
    (concatMap f l).filter p = concatMap (fun x => (f x).filter p) l := by
  induction l with
  | nil => rfl
  | cons x xs ih => simp [concatMap, List.filter_append, ih]

theorem concatMap_eq_nil {f : α → List β} {l : List α}
    (h : ∀ x ∈ l, f x = []) : concatMap f l = [] := by
  induction l with
  | nil => rfl
  | cons x xs ih =>
    simp only [concatMap, h x (List.mem_cons_self x xs)]
    exact ih fun y hy => h y (List.mem_cons_of_mem x hy)

theorem concatMap_eq_single {f : α → List β} {l : List α} {u : α}
    (hnd : l.Nodup) (hu : u ∈ l) (h : ∀ x ∈ l, x ≠ u → f x = []) :
    concatMap f l = f u := by
  induction l with
  | nil => cases hu
  | cons x xs ih =>
    have hnd' := List.nodup_cons.mp hnd
    by_cases hxu : x = u
    · subst hxu
      have hnil : concatMap f xs = [] :=
        concatMap_eq_nil fun y hy =>
          h y (List.mem_cons_of_mem _ hy) (fun hyu => hnd'.1 (hyu ▸ hy))
      simp [concatMap, hnil]
    · rcases List.mem_cons.mp hu with rfl | hu'
      · exact absurd rfl hxu
      have hx : f x = [] := h x (List.mem_cons_self x xs) hxu
      have hrec := ih hnd'.2 hu'
        (fun y hy hyu => h y (List.mem_cons_of_mem _ hy) hyu)
      simp [concatMap, hx, hrec]

theorem pairwise_concatMap {R : β → β → Prop} {f : α → List β} {l : List α}
    (hacross : l.Pairwise (fun v w => ∀ p ∈ f v, ∀ q ∈ f w, R p q))
    (hwithin : ∀ v ∈ l, (f v).Pairwise R) :
    (concatMap f l).Pairwise R := by
  induction l with
  | nil => exact List.Pairwise.nil
  | cons x xs ih =>
    rw [concatMap, List.pairwise_append]
    refine ⟨hwithin x (List.mem_cons_self x xs), ?_, ?_⟩
    · exact ih (List.pairwise_cons.mp hacross).2
        fun v hv => hwithin v (List.mem_cons_of_mem x hv)
    · intro p hp q hq
      rcases mem_concatMap.mp hq with ⟨w, hw, hqw⟩
      exact (List.pairwise_cons.mp hacross).1 w hw p hp q hqw

/-! ## Entry-kind exclusivity -/

theorem isAssistant_not_turn {e : Entry} (h : isAssistant e = true) :
    isUserTurnEntry e = false := by
  simp only [isAssistant, beq_iff_eq] at h
  simp [isUserTurnEntry, h]

theorem isAssistant_not_carrier {e : Entry} (h : isAssistant e = true) :
    isCarrier e = false := by
  simp only [isAssistant, beq_iff_eq] at h
  simp [isCarrier, h]

theorem isCarrier_not_turn {e : Entry} (h : isCarrier e = true) :
    isUserTurnEntry e = false := by
  simp only [isCarrier, Bool.and_eq_true, beq_iff_eq] at h
  simp [isUserTurnEntry, h.1, h.2]

theorem isCarrier_not_assistant {e : Entry} (h : isCarrier e = true) :
    isAssistant e = false := by
  simp only [isCarrier, Bool.and_eq_true, beq_iff_eq] at h
  simp [isAssistant, h.1]

/-! ## Scanning lemmas: `nextTurnStart` and `consumeResults` -/

theorem entryAt_eq_getElem {entries : List Entry} {j : Nat}
    (h : j < entries.length) : entryAt entries j = entries[j] := by
  simp [entryAt, List.getD_eq_getElem?_getD, List.getElem?_eq_getElem h]

theorem takeWhile_drop_peel (p : Entry → Bool) (entries : List Entry) {j : Nat}
    (hj : j < entries.length) :
    (entries.drop j).takeWhile p =
      if p (entryAt entries j) then
        entryAt entries j :: (entries.drop (j + 1)).takeWhile p
      else [] := by
  rw [List.drop_eq_getElem_cons hj, List.takeWhile_cons, entryAt_eq_getElem hj]

theorem takeWhile_length_le (p : α → Bool) (l : List α) :
    (l.takeWhile p).length ≤ l.length :=
  (List.takeWhile_sublist p).length_le

theorem nextTurnStart_ge (entries : List Entry) (j : Nat) :
    j ≤ nextTurnStart entries j :=
  Nat.le_add_right _ _

theorem nextTurnStart_le_length {entries : List Entry} {j : Nat}
    (hj : j ≤ entries.length) : nextTurnStart entries j ≤ entries.length := by
  have h1 := takeWhile_length_le (fun e => !isUserTurnEntry e) (entries.drop j)
  rw [List.length_drop] at h1
  unfold nextTurnStart
  omega

theorem nextTurnStart_end {entries : List Entry} {j : Nat}
    (hj : entries.length ≤ j) : nextTurnStart entries j = j := by
  unfold nextTurnStart
  rw [List.drop_eq_nil_of_le hj]
  rfl

theorem nextTurnStart_stop {entries : List Entry} {j : Nat}
    (hj : j < entries.length)
    (ht : isUserTurnEntry (entryAt entries j) = true) :
    nextTurnStart entries j = j := by
  unfold nextTurnStart
  rw [takeWhile_drop_peel _ _ hj]
  simp [ht]

theorem nextTurnStart_step {entries : List Entry} {j : Nat}
    (hj : j < entries.length)
    (ht : isUserTurnEntry (entryAt entries j) = false) :
    nextTurnStart entries j = nextTurnStart entries (j + 1) := by
  unfold nextTurnStart
  rw [takeWhile_drop_peel _ _ hj]
  simp only [ht, Bool.not_false, if_pos, List.length_cons]
  omega

theorem nextTurnStart_not_turn (entries : List Entry) :
    ∀ n j m, entries.length - j ≤ n → j ≤ m → m < nextTurnStart entries j →
      isUserTurnEntry (entryAt entries m) = false := by
  intro n
  induction n with
  | zero =>
    intro j m hn hjm hm
    have h := @nextTurnStart_end entries j (by omega)
    omega
  | succ n ih =>
    intro j m hn hjm hm
    by_cases hj : j < entries.length
    · by_cases ht : isUserTurnEntry (entryAt entries j) = true
      · rw [nextTurnStart_stop hj ht] at hm
        omega
      · have ht' : isUserTurnEntry (entryAt entries j) = false := by
          simpa using ht
        rcases Nat.eq_or_lt_of_le hjm with rfl | hlt
        · exact ht'
        · rw [nextTurnStart_step hj ht'] at hm
          exact ih (j + 1) m (by omega) (by omega) hm
    · have h := @nextTurnStart_end entries j (by omega)
      omega

theorem nextTurnStart_le_of_turn {entries : List Entry} {j u : Nat}
    (hju : j ≤ u) (hu : isUserTurnEntry (entryAt entries u) = true) :
    nextTurnStart entries j ≤ u := by
  by_contra h
  have hfalse := nextTurnStart_not_turn entries entries.length j u
    (by omega) hju (by omega)
  rw [hu] at hfalse
  cases hfalse

theorem nextTurnStart_ge_of_no_turn (entries : List Entry) :
    ∀ n j j', j' - j ≤ n → j' ≤ entries.length →
      (∀ m, j ≤ m → m < j' → isUserTurnEntry (entryAt entries m) = false) →
      j' ≤ nextTurnStart entries j := by
  intro n
  induction n with
  | zero =>
    intro j j' h hlen hno
    have := nextTurnStart_ge entries j
    omega
  | succ n ih =>
    intro j j' h hlen hno
    by_cases hjj : j' ≤ j
    · have := nextTurnStart_ge entries j
      omega
    · have hj : j < entries.length := by omega
      rw [nextTurnStart_step hj (hno j (Nat.le_refl j) (by omega))]
      exact ih (j + 1) j' (by omega) hlen fun m hm1 hm2 => hno m (by omega) hm2

theorem nextTurnStart_eq_of_no_turn (entries : List Entry) :
    ∀ n j j', j' - j ≤ n → j ≤ j' → j' ≤ entries.length →
      (∀ m, j ≤ m → m < j' → isUserTurnEntry (entryAt entries m) = false) →
      nextTurnStart entries j = nextTurnStart entries j' := by
  intro n
  induction n with
  | zero =>
    intro j j' h hle hlen hno
    have : j = j' := by omega
    rw [this]
  | succ n ih =>
    intro j j' h hle hlen hno
    rcases Nat.eq_or_lt_of_le hle with rfl | hlt
    · rfl
    · have hj : j < entries.length := by omega
      rw [nextTurnStart_step hj (hno j (Nat.le_refl j) hlt)]
      exact ih (j + 1) j' (by omega) (by omega) hlen
        fun m h1 h2 => hno m (by omega) h2

theorem carrierRunLen_end {entries : List Entry} {k : Nat}
    (hk : entries.length ≤ k) : carrierRunLen entries k = 0 := by
  unfold carrierRunLen
  rw [List.drop_eq_nil_of_le hk]
  rfl

theorem carrierRunLen_stop {entries : List Entry} {k : Nat}
    (hk : k < entries.length) (hc : isCarrier (entryAt entries k) = false) :
    carrierRunLen entries k = 0 := by
  unfold carrierRunLen
  rw [takeWhile_drop_peel _ _ hk]
  simp [hc]

theorem carrierRunLen_step {entries : List Entry} {k : Nat}
    (hk : k < entries.length) (hc : isCarrier (entryAt entries k) = true) :
    carrierRunLen entries k = carrierRunLen entries (k + 1) + 1 := by
  unfold carrierRunLen
  rw [takeWhile_drop_peel _ _ hk]
  simp [hc]

theorem consumeResults_ge (entries : List Entry) (k : Nat) :
    k ≤ consumeResults entries k :=
  Nat.le_add_right _ _

theorem consumeResults_le_length {entries : List Entry} {k : Nat}
    (hk : k ≤ entries.length) : consumeResults entries k ≤ entries.length := by
  have h1 := takeWhile_length_le isCarrier (entries.drop k)
  rw [List.length_drop] at h1
  unfold consumeResults carrierRunLen
  omega

theorem consumeResults_step {entries : List Entry} {k : Nat}
    (hk : k < entries.length) (hc : isCarrier (entryAt entries k) = true) :
    consumeResults entries k = consumeResults entries (k + 1) := by
  unfold consumeResults
  rw [carrierRunLen_step hk hc]
  omega

theorem consumeResults_carrier (entries : List Entry) :
    ∀ n k m, entries.length - k ≤ n → k ≤ m → m < consumeResults entries k →
      isCarrier (entryAt entries m) = true := by
  intro n
  induction n with
  | zero =>
    intro k m hn hkm hm
    have h := @carrierRunLen_end entries k (by omega)
    unfold consumeResults at hm
    omega
  | succ n ih =>
    intro k m hn hkm hm
    by_cases hk : k < entries.length
    · by_cases hc : isCarrier (entryAt entries k) = true
      · rcases Nat.eq_or_lt_of_le hkm with rfl | hlt
        · exact hc
        · rw [consumeResults_step hk hc] at hm
          exact ih (k + 1) m (by omega) (by omega) hm
      · have hc' : isCarrier (entryAt entries k) = false := by simpa using hc
        have h := carrierRunLen_stop hk hc'
        unfold consumeResults at hm
        omega
    · have h := @carrierRunLen_end entries k (by omega)
      unfold consumeResults at hm
      omega

theorem consumeResults_le_of_not_carrier {entries : List Entry} {k m : Nat}
    (hkm : k ≤ m) (hm : isCarrier (entryAt entries m) = false) :
    consumeResults entries k ≤ m := by
  by_contra h
  have hfalse := consumeResults_carrier entries entries.length k m
    (by omega) hkm (by omega)
  rw [hm] at hfalse
  cases hfalse

theorem consumeResults_end (entries : List Entry) :
    ∀ n k, entries.length - k ≤ n → k ≤ entries.length →
      consumeResults entries k = entries.length ∨
        isCarrier (entryAt entries (consumeResults entries k)) = false := by
  intro n
  induction n with
  | zero =>
    intro k hn hk
    left
    have h := @carrierRunLen_end entries k (by omega)
    unfold consumeResults
    omega
  | succ n ih =>
    intro k hn hk
    by_cases hkl : k < entries.length
    · by_cases hc : isCarrier (entryAt entries k) = true
      · rw [consumeResults_step hkl hc]
        exact ih (k + 1) (by omega) (by omega)
      · have hc' : isCarrier (entryAt entries k) = false := by simpa using hc
        right
        have h := carrierRunLen_stop hkl hc'
        have : consumeResults entries k = k := by
          unfold consumeResults
          omega
        rw [this]
        exact hc'
    · left
      have h := @carrierRunLen_end entries k (by omega)
      unfold consumeResults
      omega

theorem mem_carrierRun {entries : List Entry} {k t : Nat} :
    t ∈ carrierRun entries k ↔ k ≤ t ∧ t < consumeResults entries k := by
  unfold carrierRun consumeResults
  rw [mem_natRange]

/-! ## The declarative turn window -/

theorem windowAssistants_end {entries : List Entry} {j : Nat}
    (hj : entries.length ≤ j) : windowAssistants entries j = [] := by
  unfold windowAssistants
  rw [nextTurnStart_end hj]
  simp [natRange]

theorem windowAssistants_stop {entries : List Entry} {j : Nat}
    (hj : j < entries.length)
    (ht : isUserTurnEntry (entryAt entries j) = true) :
    windowAssistants entries j = [] := by
  unfold windowAssistants
  rw [nextTurnStart_stop hj ht]
  simp [natRange]

theorem windowAssistants_step {entries : List Entry} {j : Nat}
    (hj : j < entries.length)
    (ht : isUserTurnEntry (entryAt entries j) = false) :
    windowAssistants entries j =
      (if isAssistant (entryAt entries j) = true then [j] else []) ++
        windowAssistants entries (j + 1) := by
  unfold windowAssistants
  rw [nextTurnStart_step hj ht]
  have hge : j + 1 ≤ nextTurnStart entries (j + 1) := nextTurnStart_ge _ _
  have hsplit : nextTurnStart entries (j + 1) - j =
      (nextTurnStart entries (j + 1) - (j + 1)) + 1 := by omega
  rw [hsplit]
  show List.filter _ (j :: natRange (j + 1) _) = _
  rw [List.filter_cons]
  by_cases ha : isAssistant (entryAt entries j) = true
  · simp [ha]
  · simp only [ha]
    simp at ha
    simp [ha]

theorem mem_windowAssistants {entries : List Entry} {j a : Nat} :
    a ∈ windowAssistants entries j ↔
      j ≤ a ∧ a < nextTurnStart entries j ∧
        isAssistant (entryAt entries a) = true := by
  unfold windowAssistants
  rw [List.mem_filter, mem_natRange]
  have := nextTurnStart_ge entries j
  constructor
  · rintro ⟨⟨h1, h2⟩, h3⟩
    exact ⟨h1, by omega, h3⟩
  · rintro ⟨h1, h2, h3⟩
    exact ⟨⟨h1, by omega⟩, h3⟩

theorem windowAssistants_pairwise (entries : List Entry) (j : Nat) :
    (windowAssistants entries j).Pairwise (fun x y => x < y) :=
  (natRange_pairwise _ _).filter _

theorem windowAssistants_eq_of_skip (entries : List Entry) :
    ∀ n j k, k - j ≤ n → j ≤ k → k ≤ entries.length →
      (∀ m, j ≤ m → m < k → isUserTurnEntry (entryAt entries m) = false ∧
        isAssistant (entryAt entries m) = false) →
      windowAssistants entries j = windowAssistants entries k := by
  intro n
  induction n with
  | zero =>
    intro j k h hle hlen hno
    have : j = k := by omega
    rw [this]
  | succ n ih =>
    intro j k h hle hlen hno
    rcases Nat.eq_or_lt_of_le hle with rfl | hlt
    · rfl
    · have hj : j < entries.length := by omega
      have hm := hno j (Nat.le_refl j) hlt
      rw [windowAssistants_step hj hm.1]
      simp only [hm.2]
      simp only [Bool.false_eq_true, if_neg (by simp : ¬False), List.nil_append]
      exact ih (j + 1) k (by omega) (by omega) hlen
        fun m h1 h2 => hno m (by omega) h2

theorem turnPairs_end {entries : List Entry} {u j : Nat}
    (hj : entries.length ≤ j) : turnPairs entries u j = [] := by
  unfold turnPairs
  rw [windowAssistants_end hj]
  rfl

theorem turnPairs_stop {entries : List Entry} {u j : Nat}
    (hj : j < entries.length)
    (ht : isUserTurnEntry (entryAt entries j) = true) :
    turnPairs entries u j = [] := by
  unfold turnPairs
  rw [windowAssistants_stop hj ht]
  rfl

theorem mem_turnPairs {entries : List Entry} {u j : Nat} {p : Pair} :
    p ∈ turnPairs entries u j ↔
      ∃ a, a ∈ windowAssistants entries j ∧ p = mkPair entries u a := by
  unfold turnPairs
  rw [List.mem_map]
  constructor
  · rintro ⟨a, ha, rfl⟩
    exact ⟨a, ha, rfl⟩
  · rintro ⟨a, ha, rfl⟩
    exact ⟨a, ha, rfl⟩

theorem turnPairs_step_assistant {entries : List Entry} {u j : Nat}
    (hj : j < entries.length) (ha : isAssistant (entryAt entries j) = true) :
    turnPairs entries u j = mkPair entries u j :: turnPairs entries u (j + 1) := by
  unfold turnPairs
  rw [windowAssistants_step hj (isAssistant_not_turn ha)]
  simp [ha]

theorem turnPairs_step_other {entries : List Entry} {u j : Nat}
    (hj : j < entries.length)
    (ht : isUserTurnEntry (entryAt entries j) = false)
    (ha : isAssistant (entryAt entries j) = false) :
    turnPairs entries u j = turnPairs entries u (j + 1) := by
  unfold turnPairs
  rw [windowAssistants_step hj ht]
  simp [ha]

/-! ## The assembler loops compute the declarative description -/

theorem innerLoopAux_spec (entries : List Entry) (u : Nat) :
    ∀ fuel j lpi, entries.length ≤ j + fuel → lpi < j →
      (innerLoopAux entries u fuel j lpi).1 = turnPairs entries u j ∧
      lpi ≤ (innerLoopAux entries u fuel j lpi).2 ∧
      (innerLoopAux entries u fuel j lpi).2 + 1 ≤ nextTurnStart entries j := by
  intro fuel
  induction fuel with
  | zero =>
    intro j lpi hfuel hlpi
    have hnts := @nextTurnStart_end entries j (by omega)
    simp only [innerLoopAux]
    exact ⟨(turnPairs_end (by omega)).symm, Nat.le_refl _, by omega⟩
  | succ fuel ih =>
    intro j lpi hfuel hlpi
    by_cases hj : j < entries.length
    · by_cases ht : isUserTurnEntry (entryAt entries j) = true
      · have hnts := nextTurnStart_stop hj ht
        simp only [innerLoopAux, if_pos hj, ht, if_true]
        exact ⟨(turnPairs_stop hj ht).symm, Nat.le_refl _, by omega⟩
      · have ht' : isUserTurnEntry (entryAt entries j) = false := by simpa using ht
        by_cases ha : isAssistant (entryAt entries j) = true
        · -- assistant: emit a pair, jump over the carrier run
          have hk1 : j + 1 ≤ consumeResults entries (j + 1) :=
            consumeResults_ge entries (j + 1)
          have hk2 : consumeResults entries (j + 1) ≤ entries.length :=
            consumeResults_le_length (by omega)
          have hcarr : ∀ m, j + 1 ≤ m → m < consumeResults entries (j + 1) →
              isCarrier (entryAt entries m) = true :=
            fun m h1 h2 => consumeResults_carrier entries entries.length
              (j + 1) m (by omega) h1 h2
          have hrec := ih (consumeResults entries (j + 1))
            (consumeResults entries (j + 1) - 1) (by omega) (by omega)
          have hjump : windowAssistants entries (j + 1) =
              windowAssistants entries (consumeResults entries (j + 1)) :=
            windowAssistants_eq_of_skip entries entries.length (j + 1)
              (consumeResults entries (j + 1)) (by omega) hk1 hk2
              fun m h1 h2 =>
                ⟨isCarrier_not_turn (hcarr m h1 h2),
                  isCarrier_not_assistant (hcarr m h1 h2)⟩
          have hntsjump : nextTurnStart entries (j + 1) =
              nextTurnStart entries (consumeResults entries (j + 1)) :=
            nextTurnStart_eq_of_no_turn entries entries.length (j + 1)
              (consumeResults entries (j + 1)) (by omega) hk1 hk2
              fun m h1 h2 => isCarrier_not_turn (hcarr m h1 h2)
          have hpeel := @turnPairs_step_assistant entries u j hj ha
          have htp : turnPairs entries u (j + 1) =
              turnPairs entries u (consumeResults entries (j + 1)) := by
            unfold turnPairs
            rw [hjump]
          simp only [innerLoopAux, if_pos hj, ht', Bool.false_eq_true, if_false,
            ha, if_true]
          refine ⟨?_, by omega, ?_⟩
          · rw [hpeel, htp]
            exact congrArg _ hrec.1
          · rw [nextTurnStart_step hj ht', hntsjump]
            exact hrec.2.2
        · have ha' : isAssistant (entryAt entries j) = false := by simpa using ha
          have hrec := ih (j + 1) lpi (by omega) (by omega)
          simp only [innerLoopAux, if_pos hj, ht', Bool.false_eq_true, if_false,
            ha', if_false]
          refine ⟨?_, hrec.2.1, ?_⟩
          · rw [turnPairs_step_other hj ht' ha']
            exact hrec.1
          · rw [nextTurnStart_step hj ht']
            exact hrec.2.2
    · have hnts := @nextTurnStart_end entries j (by omega)
      simp only [innerLoopAux, if_neg hj]
      exact ⟨(turnPairs_end (by omega)).symm, Nat.le_refl _, by omega⟩

theorem turnStartsFrom_end {entries : List Entry} {i : Nat}
    (hi : entries.length ≤ i) : turnStartsFrom entries i = [] := by
  unfold turnStartsFrom
  have : entries.length - i = 0 := by omega
  rw [this]
  rfl

theorem turnStartsFrom_step {entries : List Entry} {i : Nat}
    (hi : i < entries.length) :
    turnStartsFrom entries i =
      (if isUserTurnEntry (entryAt entries i) = true then [i] else []) ++
        turnStartsFrom entries (i + 1) := by
  unfold turnStartsFrom
  have hsplit : entries.length - i = (entries.length - (i + 1)) + 1 := by omega
  rw [hsplit]
  show List.filter _ (i :: natRange (i + 1) _) = _
  rw [List.filter_cons]
  by_cases ht : isUserTurnEntry (entryAt entries i) = true
  · simp [ht]
  · simp only [ht]
    simp at ht
    simp [ht]

theorem mem_turnStartsFrom {entries : List Entry} {i u : Nat} :
    u ∈ turnStartsFrom entries i ↔
      i ≤ u ∧ u < entries.length ∧
        isUserTurnEntry (entryAt entries u) = true := by
  unfold turnStartsFrom
  rw [List.mem_filter, mem_natRange]
  constructor
  · rintro ⟨⟨h1, h2⟩, h3⟩
    exact ⟨h1, by omega, h3⟩
  · rintro ⟨h1, h2, h3⟩
    exact ⟨⟨h1, by omega⟩, h3⟩

theorem turnStartsFrom_pairwise (entries : List Entry) (i : Nat) :
    (turnStartsFrom entries i).Pairwise (fun x y => x < y) :=
  (natRange_pairwise _ _).filter _

theorem turnStartsFrom_nodup (entries : List Entry) (i : Nat) :
    (turnStartsFrom entries i).Nodup :=
  (turnStartsFrom_pairwise entries i).imp Nat.ne_of_lt

theorem turnStartsFrom_eq_of_no_turn (entries : List Entry) :
    ∀ n i i', i' - i ≤ n → i ≤ i' →
      (∀ m, i ≤ m → m < i' → isUserTurnEntry (entryAt entries m) = false) →
      turnStartsFrom entries i = turnStartsFrom entries i' := by
  intro n
  induction n with
  | zero =>
    intro i i' h hle hno
    have : i = i' := by omega
    rw [this]
  | succ n ih =>
    intro i i' h hle hno
    rcases Nat.eq_or_lt_of_le hle with rfl | hlt
    · rfl
    · by_cases hi : i < entries.length
      · rw [turnStartsFrom_step hi]
        have h0 := hno i (Nat.le_refl i) hlt
        simp only [h0, Bool.false_eq_true, if_neg (by simp : ¬False),
          List.nil_append]
        exact ih (i + 1) i' (by omega) (by omega)
          fun m h1 h2 => hno m (by omega) h2
      · rw [turnStartsFrom_end (by omega), turnStartsFrom_end (by omega)]

theorem outerLoopAux_spec (entries : List Entry) :
    ∀ fuel i, entries.length ≤ i + fuel →
      outerLoopAux entries fuel i =
        concatMap (fun u => turnPairs entries u (u + 1))
          (turnStartsFrom entries i) := by
  intro fuel
  induction fuel with
  | zero =>
    intro i hfuel
    rw [turnStartsFrom_end (by omega)]
    rfl
  | succ fuel ih =>
    intro i hfuel
    by_cases hi : i < entries.length
    · by_cases ht : isUserTurnEntry (entryAt entries i) = true
      · have hspec := innerLoopAux_spec entries i (entries.length + 1)
          (i + 1) i (by omega) (by omega)
        have hnts1 : nextTurnStart entries (i + 1) ≤ entries.length :=
          nextTurnStart_le_length (by omega)
        have hrec := ih ((innerLoopAux entries i (entries.length + 1)
          (i + 1) i).2 + 1) (by omega)
        have htsf : turnStartsFrom entries
            ((innerLoopAux entries i (entries.length + 1) (i + 1) i).2 + 1) =
            turnStartsFrom entries (i + 1) := by
          refine (turnStartsFrom_eq_of_no_turn entries entries.length (i + 1)
            ((innerLoopAux entries i (entries.length + 1) (i + 1) i).2 + 1)
            (by omega) (by omega) ?_).symm
          intro m h1 h2
          exact nextTurnStart_not_turn entries entries.length (i + 1) m
            (by omega) h1 (by omega)
        simp only [outerLoopAux, if_pos hi, ht, if_true]
        rw [turnStartsFrom_step hi]
        simp only [ht, if_true]
        show _ ++ _ = turnPairs entries i (i + 1) ++ _
        rw [hspec.1, hrec, htsf]
        simp
      · have ht' : isUserTurnEntry (entryAt entries i) = false := by
          simpa using ht
        simp only [outerLoopAux, if_pos hi, ht', Bool.false_eq_true, if_false]
        rw [turnStartsFrom_step hi]
        simp only [ht', Bool.false_eq_true, if_neg (by simp : ¬False),
          List.nil_append]
        exact ih (i + 1) (by omega)
    · rw [turnStartsFrom_end (by omega)]
      simp only [outerLoopAux, if_neg hi]
      rfl

/-- The nested index loops of `_build_conversation_pairs` compute the
declarative assembly: for every turn-opening user event, one pair per
assistant event before the next turn, carrying the carrier run that
follows it. -/
theorem buildConversationPairs_eq (entries : List Entry) :
    buildConversationPairs entries = assembledPairs entries := by
  unfold buildConversationPairs assembledPairs
  exact outerLoopAux_spec entries (entries.length + 1) 0 (by omega)

theorem mem_buildConversationPairs {entries : List Entry} {p : Pair} :
    p ∈ buildConversationPairs entries ↔
      ∃ u a, isUserTurnEntry (entryAt entries u) = true ∧
        u < entries.length ∧ u + 1 ≤ a ∧
        a < nextTurnStart entries (u + 1) ∧
        isAssistant (entryAt entries a) = true ∧
        p = mkPair entries u a := by
  rw [buildConversationPairs_eq]
  unfold assembledPairs
  rw [mem_concatMap]
  constructor
  · rintro ⟨u, hu, hp⟩
    rcases mem_turnStartsFrom.mp hu with ⟨-, hulen, huts⟩
    rcases mem_turnPairs.mp hp with ⟨a, ha, rfl⟩
    rcases mem_windowAssistants.mp ha with ⟨h1, h2, h3⟩
    exact ⟨u, a, huts, hulen, h1, h2, h3, rfl⟩
  · rintro ⟨u, a, huts, hulen, h1, h2, h3, rfl⟩
    refine ⟨u, mem_turnStartsFrom.mpr ⟨by omega, hulen, huts⟩, ?_⟩
    exact mem_turnPairs.mpr ⟨a, mem_windowAssistants.mpr ⟨h1, h2, h3⟩, rfl⟩

/-! ## Claims C1, C2 and C9 -/

/-- Claim C1: for every event sequence, a turn opened by the user event at
index `u` yields exactly one ConversationPair per assistant event before
the next turn-opening user event (or end of sequence) — the pairs whose
assistant response lies in that window are exactly one per window
assistant — and every pair of that turn carries `u` as its
`user_message`; conversely every pair whose `user_message` is `u` has its
assistant response inside the window. -/
theorem turn_yields_one_pair_per_assistant (entries : List Entry) (u : Nat)
    (hu : u < entries.length)
    (ht : isUserTurnEntry (entryAt entries u) = true) :
    ((buildConversationPairs entries).filter fun p =>
        decide (u < p.assistant_response) &&
          decide (p.assistant_response < nextTurnStart entries (u + 1))) =
      (windowAssistants entries (u + 1)).map (mkPair entries u) ∧
    ∀ p ∈ buildConversationPairs entries, p.user_message = u →
      u < p.assistant_response ∧
        p.assistant_response < nextTurnStart entries (u + 1) := by
  constructor
  · rw [buildConversationPairs_eq]
    unfold assembledPairs
    rw [filter_concatMap]
    have humem : u ∈ turnStartsFrom entries 0 :=
      mem_turnStartsFrom.mpr ⟨Nat.zero_le u, hu, ht⟩
    have hkill : ∀ v ∈ turnStartsFrom entries 0, v ≠ u →
        (turnPairs entries v (v + 1)).filter (fun p =>
          decide (u < p.assistant_response) &&
            decide (p.assistant_response < nextTurnStart entries (u + 1))) =
          [] := by
      intro v hv hvu
      rcases mem_turnStartsFrom.mp hv with ⟨-, hvlen, hvts⟩
      rw [List.filter_eq_nil_iff]
      intro p hp
      rcases mem_turnPairs.mp hp with ⟨a, ha, rfl⟩
      rcases mem_windowAssistants.mp ha with ⟨ha1, ha2, -⟩
      simp only [mkPair, Bool.and_eq_true, decide_eq_true_eq, not_and]
      rcases Nat.lt_or_ge v u with hvu' | hvu'
      · have hle : nextTurnStart entries (v + 1) ≤ u :=
          nextTurnStart_le_of_turn (by omega) ht
        omega
      · have hvu'' : u < v := by omega
        have hle : nextTurnStart entries (u + 1) ≤ v :=
          nextTurnStart_le_of_turn (by omega) hvts
        omega
    rw [concatMap_eq_single (turnStartsFrom_nodup entries 0) humem hkill]
    rw [List.filter_eq_self.mpr]
    · rfl
    · intro p hp
      rcases mem_turnPairs.mp hp with ⟨a, ha, rfl⟩
      rcases mem_windowAssistants.mp ha with ⟨ha1, ha2, -⟩
      simp only [mkPair, Bool.and_eq_true, decide_eq_true_eq]
      omega
  · intro p hp hum
    rcases mem_buildConversationPairs.mp hp with
      ⟨v, a, hvts, hvlen, h1, h2, h3, rfl⟩
    have hvu : v = u := hum
    subst hvu
    simp only [mkPair]
    omega

/-- Witness for C1 on the concrete log `demoEntries` at the turn opened at
index 0: the window holds the assistants at indices 1 and 3, and the two
pairs of the turn are exactly their pairs. -/
theorem turn_yields_one_pair_per_assistant_witness :
    (0 < demoEntries.length ∧
      isUserTurnEntry (entryAt demoEntries 0) = true) ∧
    (((buildConversationPairs demoEntries).filter fun p =>
        decide (0 < p.assistant_response) &&
          decide (p.assistant_response < nextTurnStart demoEntries (0 + 1))) =
      (windowAssistants demoEntries (0 + 1)).map (mkPair demoEntries 0) ∧
    ∀ p ∈ buildConversationPairs demoEntries, p.user_message = 0 →
      0 < p.assistant_response ∧
        p.assistant_response < nextTurnStart demoEntries (0 + 1)) :=
  ⟨⟨by decide, by decide⟩,
    turn_yields_one_pair_per_assistant demoEntries 0 (by decide) (by decide)⟩

/-- Claim C2: every pair's `tool_results` is the contiguous run of indices
immediately following its assistant response, every entry in the run is a
tool-result carrier, and the run stops exactly at the end of the log or
at the first non-carrier entry. -/
theorem pair_tool_results_run (entries : List Entry) (p : Pair)
    (hp : p ∈ buildConversationPairs entries) :
    p.tool_results =
      natRange (p.assistant_response + 1) p.tool_results.length ∧
    (∀ t ∈ p.tool_results, t < entries.length ∧
      isCarrier (entryAt entries t) = true) ∧
    (p.assistant_response + 1 + p.tool_results.length = entries.length ∨
      isCarrier (entryAt entries
        (p.assistant_response + 1 + p.tool_results.length)) = false) := by
  rcases mem_buildConversationPairs.mp hp with
    ⟨u, a, hts, hulen, h1, h2, h3, rfl⟩
  have halen : a < entries.length :=
    Nat.lt_of_lt_of_le h2 (nextTurnStart_le_length (by omega))
  refine ⟨?_, ?_, ?_⟩
  · simp [mkPair, carrierRun, natRange_length]
  · intro t htmem
    have ht' := mem_carrierRun.mp htmem
    have hcar := consumeResults_carrier entries entries.length (a + 1) t
      (by omega) ht'.1 ht'.2
    have hle : consumeResults entries (a + 1) ≤ entries.length :=
      consumeResults_le_length (by omega)
    exact ⟨by unfold consumeResults at hle ht'; omega, hcar⟩
  · simp only [mkPair, carrierRun, natRange_length]
    have hend := consumeResults_end entries entries.length (a + 1)
      (by omega) (by omega)
    unfold consumeResults at hend
    exact hend

/-- Witness for C2: the pair `⟨0, 1, [2]⟩` of `demoEntries`. -/
theorem pair_tool_results_run_witness :
    (⟨0, 1, [2]⟩ : Pair) ∈ buildConversationPairs demoEntries ∧
    ((⟨0, 1, [2]⟩ : Pair).tool_results =
      natRange ((⟨0, 1, [2]⟩ : Pair).assistant_response + 1)
        (⟨0, 1, [2]⟩ : Pair).tool_results.length ∧
    (∀ t ∈ (⟨0, 1, [2]⟩ : Pair).tool_results, t < demoEntries.length ∧
      isCarrier (entryAt demoEntries t) = true) ∧
    ((⟨0, 1, [2]⟩ : Pair).assistant_response + 1 +
        (⟨0, 1, [2]⟩ : Pair).tool_results.length = demoEntries.length ∨
      isCarrier (entryAt demoEntries ((⟨0, 1, [2]⟩ : Pair).assistant_response +
        1 + (⟨0, 1, [2]⟩ : Pair).tool_results.length)) = false)) :=
  ⟨by decide, pair_tool_results_run demoEntries ⟨0, 1, [2]⟩ (by decide)⟩

/-- Claim C9: the assembled pairs appear in the order of their assistant
responses in the log, and no tool-result index is attached to two
different pairs. -/
theorem pairs_ordered_disjoint (entries : List Entry) :
    (buildConversationPairs entries).Pairwise fun p q =>
      p.assistant_response < q.assistant_response ∧
        ∀ t ∈ p.tool_results, ∀ s ∈ q.tool_results, t ≠ s := by
  have hlt : (buildConversationPairs entries).Pairwise fun p q =>
      p.assistant_response < q.assistant_response := by
    rw [buildConversationPairs_eq]
    unfold assembledPairs
    refine pairwise_concatMap ?_ ?_
    · refine (turnStartsFrom_pairwise entries 0).imp_of_mem ?_
      intro v w hv hw hvw p hp q hq
      rcases mem_turnStartsFrom.mp hw with ⟨-, hwlen, hwts⟩
      rcases mem_turnPairs.mp hp with ⟨a, ha, rfl⟩
      rcases mem_turnPairs.mp hq with ⟨a', ha', rfl⟩
      rcases mem_windowAssistants.mp ha with ⟨h1, h2, -⟩
      rcases mem_windowAssistants.mp ha' with ⟨h1', h2', -⟩
      have hle : nextTurnStart entries (v + 1) ≤ w :=
        nextTurnStart_le_of_turn (by omega) hwts
      simp only [mkPair]
      omega
    · intro v hv
      unfold turnPairs
      rw [List.pairwise_map]
      refine (windowAssistants_pairwise entries (v + 1)).imp ?_
      intro a b hab
      simpa [mkPair] using hab
  refine hlt.imp_of_mem ?_
  intro p q hp hq hpq
  rcases mem_buildConversationPairs.mp hp with
    ⟨u, a, hts, hulen, h1, h2, h3, rfl⟩
  rcases mem_buildConversationPairs.mp hq with
    ⟨u', a', hts', hulen', h1', h2', h3', rfl⟩
  simp only [mkPair] at hpq ⊢
  refine ⟨hpq, ?_⟩
  intro t htmem s hsmem
  have ht' := mem_carrierRun.mp htmem
  have hs' := mem_carrierRun.mp hsmem
  have hta : consumeResults entries (a + 1) ≤ a' :=
    consumeResults_le_of_not_carrier (by omega) (isAssistant_not_carrier h3')
  omega

/-! ## Claim C3 -/

/-- Claim C3: a malformed line is skipped individually, with exactly one
diagnostic, and parsing continues with the next line — deleting the
malformed line changes neither the parsed entries nor the other
diagnostics; parsing is a homomorphism for concatenation (so the valid
records keep their input order); and the concrete log with one malformed
line between two valid user/assistant pairs still yields both pairs with
one diagnostic recorded. -/
theorem parse_skips_malformed :
    (∀ xs ys : List RawLine,
      parseEntries (xs ++ RawLine.malformed :: ys) = parseEntries (xs ++ ys) ∧
      parseDiagnostics (xs ++ RawLine.malformed :: ys) =
        parseDiagnostics (xs ++ ys) + 1) ∧
    (∀ xs ys : List RawLine,
      parseEntries (xs ++ ys) = parseEntries xs ++ parseEntries ys) ∧
    (buildConversationPairs (parseEntries demoLog) =
        [⟨0, 1, []⟩, ⟨2, 3, []⟩] ∧
      parseDiagnostics demoLog = 1) := by
  refine ⟨?_, ?_, by decide⟩
  · intro xs ys
    induction xs with
    | nil => exact ⟨rfl, rfl⟩
    | cons x xs ih =>
      cases x with
      | blank =>
        exact ⟨by simpa [parseEntries] using ih.1,
          by simpa [parseDiagnostics] using ih.2⟩
      | malformed =>
        exact ⟨by simpa [parseEntries] using ih.1,
          by simpa [parseDiagnostics] using ih.2⟩
      | valid e =>
        refine ⟨?_, by simpa [parseDiagnostics] using ih.2⟩
        by_cases he : (e.type == "summary") = true
        · simpa [parseEntries, he] using ih.1
        · simp only [List.cons_append, parseEntries, if_neg he, List.append_eq]
          rw [ih.1]
  · intro xs ys
    induction xs with
    | nil => rfl
    | cons x xs ih =>
      cases x with
      | blank => simpa [parseEntries] using ih
      | malformed => simpa [parseEntries] using ih
      | valid e =>
        by_cases he : (e.type == "summary") = true
        · simpa [parseEntries, he] using ih
        · simp only [List.cons_append, parseEntries, if_neg he, List.append_eq,
            ih, List.cons_append]

/-! ## Claims C4 and C10 -/

/-- Claim C4 (code bug in the source): the lookup is not total in the shape
of the `tool_results` entries.  For a tool with a truthy id and a result
entry whose `message.content` is present but an empty list, the
subscript `[0]` in
`result.get('message', {}).get('content', [{}])[0].get('tool_use_id')`
raises `IndexError` instead of the lookup returning the absent value. -/
theorem find_tool_result_raises_on_empty_content :
    findToolResult (JVal.obj [("id", JVal.str "x")])
        [JVal.obj [("message", JVal.obj [("content", JVal.arr [])])]] =
      Except.error "IndexError" := rfl

/-- Claim C10: when the tool's `id` field is absent or falsy, the lookup
returns the absent value before the loop, hence for every `tool_results`
list, without inspecting any entry. -/
theorem find_tool_result_falsy_id (fields : List (String × JVal))
    (hid : truthy ((lookupField "id" fields).getD JVal.null) = false) :
    ∀ tool_results : List JVal,
      findToolResult (JVal.obj fields) tool_results = Except.ok none := by
  intro rs
  unfold findToolResult
  simp [dictGet, hid]

/-- Witness for C10: a tool object with no `id` field at all, and a
nonempty (ill-shaped) `tool_results` list that is never inspected. -/
theorem find_tool_result_falsy_id_witness :
    truthy ((lookupField "id" []).getD JVal.null) = false ∧
    findToolResult (JVal.obj []) [JVal.null] = Except.ok none :=
  ⟨by decide, find_tool_result_falsy_id [] (by decide) [JVal.null]⟩

/-! ## Claim C5 -/

/-- Counterexample to claim C5 as stated: for the adjacent delete/add pair
with contents "foo bar" and "foo baz", the highlighter does not mark
"bar" and "baz".  The character matcher aligns the common prefix
"foo ba", so the marked spans are "r" and "z". -/
theorem inline_highlight_cex :
    ¬ (hlMarked (formatDiffLineWithInlineHighlight "-foo bar"
          ["-foo bar", "+foo baz"] 0) = "bar" ∧
        hlMarked (formatDiffLineWithInlineHighlight "+foo baz"
          ["-foo bar", "+foo baz"] 1) = "baz") := by
  decide

/-- Claim C5 (amended): the highlighted spans are the delete/replace
opcode spans of the SequenceMatcher character alignment on the delete
line and the insert/replace spans on the add line, with equal spans
unmarked; on the pair "foo bar"/"foo baz" the alignment is
equal "foo ba" + replace "r"/"z", so exactly "r" is marked on the delete
line and "z" on the add line, and the common prefix "foo ba" (hence in
particular "foo ") is unmarked on both. -/
theorem inline_highlight_spans :
    getOpcodes "foo bar".toList "foo baz".toList =
      [⟨OTag.equal, 0, 6, 0, 6⟩, ⟨OTag.replace, 6, 7, 6, 7⟩] ∧
    formatDiffLineWithInlineHighlight "-foo bar"
        ["-foo bar", "+foo baz"] 0 =
      HLine.modifiedDel [Seg.plain "foo ba", Seg.marked "r"] ∧
    formatDiffLineWithInlineHighlight "+foo baz"
        ["-foo bar", "+foo baz"] 1 =
      HLine.modifiedAdd [Seg.plain "foo ba", Seg.marked "z"] :=
  ⟨by decide, by decide, by decide⟩

/-! ## Claim C6 -/

theorem strStarts_dash_not_plus (l : String)
    (h : strStarts l "-" = true) : strStarts l "+" = false := by
  have h1 : "-".toList = ['-'] := rfl
  have h2 : "+".toList = ['+'] := rfl
  unfold strStarts at h ⊢
  rw [h1] at h
  rw [h2]
  cases hl : l.toList with
  | nil =>
    rw [hl] at h
    exact absurd h (by simp [hasPfx])
  | cons d ds =>
    rw [hl] at h
    simp only [hasPfx, Bool.and_eq_true, beq_iff_eq] at h
    rw [← h.1]
    simp [hasPfx]

/-- Claim C6: the structured-patch walk emits a delete at the old counter
(bumping only it) for `-` lines, an add at the new counter (bumping only
it) for `+` lines, and a context row at both counters (bumping both)
otherwise: on the example hunk (old_start 10, new_start 12) it yields
context(10,12,"a"), delete(old 11), add(new 13,"c"), context(12,14,"d"),
and in general the old numbers are consecutive from `old_start` over the
non-`+` lines and the new numbers consecutive from `new_start` over the
non-`-` lines. -/
theorem structured_patch_walk :
    walkHunk ⟨10, 12, [" a", "-b", "+c", " d"]⟩ =
      [⟨DKind.context, some 10, some 12, "a"⟩,
       ⟨DKind.del, some 11, none, "b"⟩,
       ⟨DKind.add, none, some 13, "c"⟩,
       ⟨DKind.context, some 12, some 14, "d"⟩] ∧
    ∀ (oldStart newStart : Nat) (lines : List String),
      ((walkHunkAux oldStart newStart lines).filterMap fun d => d.oldNo) =
        natRange oldStart (lines.countP fun l => !(strStarts l "+")) ∧
      ((walkHunkAux oldStart newStart lines).filterMap fun d => d.newNo) =
        natRange newStart (lines.countP fun l => !(strStarts l "-")) := by
  refine ⟨by decide, ?_⟩
  intro os ns lines
  induction lines generalizing os ns with
  | nil => exact ⟨rfl, rfl⟩
  | cons l rest ih =>
    by_cases h1 : strStarts l "-" = true
    · have h2 : strStarts l "+" = false := strStarts_dash_not_plus l h1
      simp only [walkHunkAux, if_pos h1, List.filterMap_cons,
        List.countP_cons, h1, h2]
      constructor
      · simp only [Bool.not_false, if_pos rfl]
        show os :: _ = natRange os (_ + 1)
        rw [natRange]
        exact congrArg _ (ih (os + 1) ns).1
      · simp only [Bool.not_true]
        show _ = natRange ns (_ + if false = true then 1 else 0)
        simp only [if_neg (by simp : ¬(false = true)), Nat.add_zero]
        exact (ih (os + 1) ns).2
    · have h1' : strStarts l "-" = false := by simpa using h1
      by_cases h3 : strStarts l "+" = true
      · simp only [walkHunkAux, h1', Bool.false_eq_true, if_false, if_pos h3,
          List.filterMap_cons, List.countP_cons, h3, h1']
        constructor
        · simp only [Bool.not_true]
          show _ = natRange os (_ + if false = true then 1 else 0)
          simp only [if_neg (by simp : ¬(false = true)), Nat.add_zero]
          exact (ih os (ns + 1)).1
        · simp only [Bool.not_false]
          show ns :: _ = natRange ns (_ + 1)
          rw [natRange]
          exact congrArg _ (ih os (ns + 1)).2
      · have h3' : strStarts l "+" = false := by simpa using h3
        simp only [walkHunkAux, h1', h3', Bool.false_eq_true, if_false,
          List.filterMap_cons, List.countP_cons]
        constructor
        · simp only [h3', Bool.not_false]
          show os :: _ = natRange os (_ + 1)
          rw [natRange]
          exact congrArg _ (ih (os + 1) (ns + 1)).1
        · simp only [h1', Bool.not_false]
          show ns :: _ = natRange ns (_ + 1)
          rw [natRange]
          exact congrArg _ (ih (os + 1) (ns + 1)).2

/-! ## Claim C8: the matcher on two equal sequences -/

theorem selfRun_diag (a : List α) (i : Nat) : selfRun a i i = i + 1 := by
  induction i with
  | zero => simp [selfRun]
  | succ i ih => simp [selfRun, ih]

theorem selfRun_le (a : List α) :
    ∀ i j, selfRun a i j ≤ i + 1 ∧ selfRun a i j ≤ j + 1 := by
  intro i
  induction i with
  | zero =>
    intro j
    constructor <;> (simp only [selfRun]; split <;> omega)
  | succ i ih =>
    intro j
    cases j with
    | zero => constructor <;> (simp only [selfRun]; split <;> omega)
    | succ j =>
      have hj := ih j
      constructor <;> (simp only [selfRun]; split <;> omega)

theorem selfRun_eq_zero (a : List α) (i j : Nat)
    (h : ¬ chAt a i = chAt a j) : selfRun a i j = 0 := by
  cases i <;> cases j <;> first
    | (exact absurd rfl h)
    | simp [selfRun, h]

theorem flmRowAux_self (a : List α) (i : Nat) (hi : i < a.length)
    (prev : Nat → Nat)
    (hprev : ∀ m, m < a.length → prev m = rowPrev a i m) :
    ∀ cnt j acc best,
      j + cnt = a.length →
      (∀ m, m < j → acc m = selfRun a i m) →
      (∀ m, j ≤ m → acc m = 0) →
      best = ⟨0, 0, if i < j then i + 1 else i⟩ →
      (∀ m, m < a.length →
        (flmRowAux a a i prev j cnt acc best).1 m = selfRun a i m) ∧
      (flmRowAux a a i prev j cnt acc best).2 = ⟨0, 0, i + 1⟩ := by
  intro cnt
  induction cnt with
  | zero =>
    intro j acc best hj hacc1 hacc2 hbest
    have hij : i < j := by omega
    simp only [flmRowAux]
    exact ⟨fun m hm => hacc1 m (by omega), by rw [hbest, if_pos hij]⟩
  | succ cnt ih =>
    intro j acc best hj hacc1 hacc2 hbest
    have hjlen : j < a.length := by omega
    by_cases heq : chAt a j = chAt a i
    · have hk : (if j == 0 then 0 else prev (j - 1)) + 1 = selfRun a i j := by
        cases j with
        | zero =>
          cases i with
          | zero => simp [selfRun]
          | succ i' => simp [selfRun, heq.symm]
        | succ j' =>
          have hj' : j' < a.length := by omega
          rw [show ((j' + 1 : Nat) == 0) = false from rfl]
          simp only [Bool.false_eq_true, if_neg (by simp : ¬False),
            Nat.add_sub_cancel, hprev j' hj']
          cases i with
          | zero => simp [rowPrev, selfRun, heq.symm]
          | succ i' => simp [rowPrev, selfRun, heq.symm]
      subst hbest
      simp only [flmRowAux, if_pos heq, hk]
      have hflag : (if (Match3.mk 0 0 (if i < j then i + 1 else i)).size <
            selfRun a i j
          then (⟨i + 1 - selfRun a i j, j + 1 - selfRun a i j,
            selfRun a i j⟩ : Match3)
          else ⟨0, 0, if i < j then i + 1 else i⟩) =
          ⟨0, 0, if i < j + 1 then i + 1 else i⟩ := by
        have h1 := (selfRun_le a i j).1
        have h2 := (selfRun_le a i j).2
        by_cases hij : j = i
        · subst hij
          rw [selfRun_diag a j]
          simp [Nat.lt_irrefl, Nat.lt_succ_self]
        · by_cases hji : j < i
          · simp only [if_neg (show ¬ i < j by omega)]
            rw [if_neg (show ¬ (Match3.mk 0 0 i).size < selfRun a i j by
              simp only [Match3.mk.injEq]; omega)]
            rw [if_neg (show ¬ i < j + 1 by omega)]
          · have hij' : i < j := by omega
            simp only [if_pos hij', if_pos (show i < j + 1 by omega)]
            rw [if_neg (show ¬ (Match3.mk 0 0 (i + 1)).size < selfRun a i j by
              simp only [Match3.mk.injEq]; omega)]
      rw [hflag]
      refine ih (j + 1) _ _ (by omega) ?_ ?_ rfl
      · intro m hm
        by_cases hmj : m = j
        · subst hmj
          simp [hk.symm]
        · have : (m == j) = false := by simp [hmj]
          simp only [this, Bool.false_eq_true, if_neg (by simp : ¬False)]
          exact hacc1 m (by omega)
      · intro m hm
        have : (m == j) = false := by
          simp only [beq_eq_false_iff_ne, ne_eq]
          omega
        simp only [this, Bool.false_eq_true, if_neg (by simp : ¬False)]
        exact hacc2 m (by omega)
    · have hne : i ≠ j := by
        intro hcontra
        subst hcontra
        exact heq rfl
      subst hbest
      simp only [flmRowAux, if_neg heq]
      have hflag : (if i < j then i + 1 else i) = (if i < j + 1 then i + 1 else i) := by
        split_ifs <;> omega
      rw [hflag]
      refine ih (j + 1) _ _ (by omega) ?_ ?_ rfl
      · intro m hm
        by_cases hmj : m = j
        · subst hmj
          rw [hacc2 m (Nat.le_refl m),
            selfRun_eq_zero a i m fun hcc => heq hcc.symm]
        · exact hacc1 m (by omega)
      · intro m hm
        exact hacc2 m (by omega)

theorem flmRows_self (a : List α) :
    ∀ icnt i j2len best,
      i + icnt = a.length →
      (∀ m, m < a.length → j2len m = rowPrev a i m) →
      best = ⟨0, 0, i⟩ →
      flmRows a a 0 a.length i icnt j2len best = ⟨0, 0, a.length⟩ := by
  intro icnt
  induction icnt with
  | zero =>
    intro i j2len best hi hj2 hbest
    simp only [flmRows]
    rw [hbest]
    have : i = a.length := by omega
    rw [this]
  | succ icnt ih =>
    intro i j2len best hi hj2 hbest
    have hi' : i < a.length := by omega
    have hrow := flmRowAux_self a i hi' j2len hj2 a.length 0 (fun _ => 0) best
      (by omega) (fun m hm => absurd hm (by omega)) (fun m _ => rfl)
      (by rw [hbest]; simp)
    simp only [flmRows]
    refine ih (i + 1) _ _ (by omega) ?_ hrow.2
    intro m hm
    simpa [rowPrev] using hrow.1 m hm

theorem findLongestMatch_self (a : List α) :
    findLongestMatch a a 0 a.length 0 a.length = ⟨0, 0, a.length⟩ := by
  simp only [findLongestMatch, Nat.sub_zero]
  rw [flmRows_self a a.length 0 (fun _ => 0) ⟨0, 0, 0⟩ (by omega)
    (fun m hm => rfl) rfl]
  have hL : extendLeftAux a a 0 0
      ((⟨0, 0, a.length⟩ : Match3).a + 1) ⟨0, 0, a.length⟩ =
      ⟨0, 0, a.length⟩ := by
    show extendLeftAux a a 0 0 (0 + 1) _ = _
    simp only [extendLeftAux]
    rw [if_neg]
    rintro ⟨h1, -⟩
    exact absurd h1 (by simp)
  rw [hL]
  simp only [extendRightAux]
  rw [if_neg]
  rintro ⟨h1, -⟩
  simp at h1

theorem findLongestMatch_empty (a b : List α) (q r : Nat) :
    findLongestMatch a b q q r r = ⟨q, r, 0⟩ := by
  simp only [findLongestMatch, Nat.sub_self]
  simp only [flmRows]
  have hL : extendLeftAux a b q r
      ((⟨q, r, 0⟩ : Match3).a + 1) ⟨q, r, 0⟩ = ⟨q, r, 0⟩ := by
    show extendLeftAux a b q r (q + 1) _ = _
    simp only [extendLeftAux]
    rw [if_neg]
    rintro ⟨h1, -⟩
    exact absurd h1 (by simp)
  rw [hL]
  simp only [extendRightAux]
  rw [if_neg]
  rintro ⟨h1, -⟩
  simp at h1

theorem matchingBlocksRec_self (a : List α) :
    ∀ fuel, 2 ≤ fuel → 0 < a.length →
      matchingBlocksRec a a fuel 0 a.length 0 a.length =
        [⟨0, 0, a.length⟩] := by
  intro fuel h2 hpos
  obtain ⟨f, rfl⟩ : ∃ f, fuel = f + 2 := ⟨fuel - 2, by omega⟩
  show matchingBlocksRec a a (f + 1 + 1) 0 a.length 0 a.length = _
  simp only [matchingBlocksRec, findLongestMatch_self, Nat.zero_add,
    findLongestMatch_empty]
  rw [if_pos hpos]
  simp

theorem getMatchingBlocks_self (a : List α) :
    getMatchingBlocks a a =
      if a.length = 0 then [⟨0, 0, 0⟩]
      else [⟨0, 0, a.length⟩, ⟨a.length, a.length, 0⟩] := by
  unfold getMatchingBlocks getMatchingBlocksRaw
  by_cases h : a.length = 0
  · rw [if_pos h, h]
    simp [matchingBlocksRec, findLongestMatch_empty, mergeAdjacent]
  · have hpos : 0 < a.length := by omega
    rw [if_neg h]
    rw [matchingBlocksRec_self a (a.length + a.length + 1) (by omega) hpos]
    simp only [mergeAdjacent, Nat.add_zero, Nat.zero_add]
    simp [hpos]

theorem getOpcodes_self (a : List α) :
    getOpcodes a a =
      if a.length = 0 then []
      else [⟨OTag.equal, 0, a.length, 0, a.length⟩] := by
  unfold getOpcodes
  rw [getMatchingBlocks_self]
  by_cases h : a.length = 0
  · rw [if_pos h, if_pos h]
    simp [opcodesFromBlocks]
  · rw [if_neg h, if_neg h]
    have hpos : 0 < a.length := by omega
    simp [opcodesFromBlocks, hpos, Nat.lt_irrefl]

theorem groupLoop_single_equal (c : Opcode) (hc : c.tag = OTag.equal)
    (hlen : ¬ (3 + 3 < c.i2 - c.i1)) : groupLoop 3 [] [c] = [] := by
  simp only [groupLoop]
  rw [if_neg]
  · simp [groupLoop, hc]
  · simp only [Bool.and_eq_true, beq_iff_eq, decide_eq_true_eq, not_and]
    intro _
    exact hlen

theorem groupedOpcodes_self (a : List α) : groupedOpcodes a a 3 = [] := by
  unfold groupedOpcodes
  rw [getOpcodes_self]
  by_cases h : a.length = 0
  · rw [if_pos h]
    rfl
  · rw [if_neg h]
    simp only [List.isEmpty_cons]
    rw [if_neg (by simp)]
    simp only [mapHeadOp, mapLastOp]
    simp
    exact groupLoop_single_equal _ rfl (by
      show ¬ (3 + 3 < a.length ⊓ (a.length - 3 + 3) - (a.length - 3))
      omega)

theorem unifiedDiff_self (l : List String) : unifiedDiff l l = [] := by
  unfold unifiedDiff
  rw [groupedOpcodes_self]
  rfl

/-- Claim C8: for every text `X`, the raw-text diff of `X` against itself
is the empty line sequence; in particular both-empty input yields the
empty sequence (no error value arises anywhere on this path). -/
theorem generate_diff_self (X : String) : generateDiffFromToolInput X X = [] := by
  unfold generateDiffFromToolInput
  by_cases h : (X == "") = true
  · rw [if_pos (by rw [h]; rfl)]
  · rw [if_neg (by rw [show (X == "") = false by simpa using h]; simp)]
    rw [show (X == "") = false by simpa using h]
    simp only [Bool.false_eq_true, if_neg (by simp : ¬False)]
    rw [unifiedDiff_self]
    rfl

/-! ## Claim C7 -/

/-- Counterexample to claim C7 as stated: the raw-text fallback rendering
keeps no old-line counter at all.  After the hunk header
`@@ -5,1 +7,1 @@` the delete line is rendered with a blank number field
(`num = none`), not at the old counter 5 that the claimed seeding of "the
old and new line counters" would give it. -/
theorem fallback_render_cex :
    ¬ (∀ r ∈ fallbackRender ["@@ -5,1 +7,1 @@", "-x", " y"],
        r.kind = RKind.del → r.num = some 5) := by
  decide

/-- Claim C7 (amended): the two synthetic file-header lines of the
unified diff are stripped (the generator output equals the full diff
with its first two lines dropped, and a nonempty diff always begins with
`--- old`, `+++ new`); each `@@` header re-seeds the single line counter
used for add and context rows from the first `+digits` group in the
header, delete rows carry no line number, the counter starts at 1 when
no header precedes, and a header without a parseable `+digits` group
leaves the counter unchanged. -/
theorem fallback_diff_render :
    (∀ old_string new_string : String,
      generateDiffFromToolInput old_string new_string =
        (unifiedDiff
          (if old_string == "" then [] else splitlinesKeepends old_string)
          (if new_string == "" then [] else
            splitlinesKeepends new_string)).drop 2) ∧
    (∀ a b : List String, unifiedDiff a b = [] ∨
      ∃ rest, unifiedDiff a b = "--- old" :: "+++ new" :: rest) ∧
    fallbackRender ["@@ -10,2 +12,2 @@", " a", "+b"] =
      [⟨RKind.hunkHeader, none, "@@ -10,2 +12,2 @@"⟩,
       ⟨RKind.context, some 12, "a"⟩, ⟨RKind.add, some 13, "+b"⟩] ∧
    fallbackRender ["+x"] = [⟨RKind.add, some 1, "+x"⟩] ∧
    fallbackRender ["@@ -10,2 +12,2 @@", "+a", "@@ junk @@", "+b"] =
      [⟨RKind.hunkHeader, none, "@@ -10,2 +12,2 @@"⟩,
       ⟨RKind.add, some 12, "+a"⟩,
       ⟨RKind.hunkHeader, none, "@@ junk @@"⟩,
       ⟨RKind.add, some 13, "+b"⟩] := by
  refine ⟨?_, ?_, by decide, by decide, by decide⟩
  · intro o n
    unfold generateDiffFromToolInput
    by_cases hcond : (o == "" && n == "") = true
    · rw [if_pos hcond]
      have ho := (Bool.and_eq_true _ _).mp hcond
      rw [if_pos ho.1, if_pos ho.2]
      rfl
    · rw [if_neg hcond]
      simp only []
      by_cases hlen : 2 < (unifiedDiff
          (if o == "" then [] else splitlinesKeepends o)
          (if n == "" then [] else splitlinesKeepends n)).length
      · rw [if_pos hlen]
      · rw [if_neg hlen]
        exact (List.drop_eq_nil_of_le (by omega)).symm
  · intro a b
    by_cases hg : (groupedOpcodes a b 3).isEmpty = true
    · left
      unfold unifiedDiff
      simp only []
      rw [if_pos hg]
    · right
      refine ⟨concatMap (formatGroup a b) (groupedOpcodes a b 3), ?_⟩
      unfold unifiedDiff
      simp only []
      rw [if_neg hg]

end ClaudeHistory
